import Mathlib

set_option maxHeartbeats 1000000

namespace OdinDSP

/-!  Shallow embedding of the speech DSP core of `odin`
     (src/odin/preprocessing/signal.py and speech.py). -/

/-- Error taxonomy for `segment_axis` parameter and data validation
(the two `ValueError` messages about overlap/length map to
`invalidParameter`; the "Not enough data points" error maps to
`insufficientData`). -/
inductive SegError where
  | invalidParameter
  | insufficientData
deriving DecidableEq, Repr

/-- Core of `segment_axis` (signal.py) after parameter validation, for a 1-D
array with `axis=0` and `end='cut'`.  Mirrors the source: if the length does
not admit an exact framing, the array is cut down to
`rounddown = frame_length + ((length - frame_length) // step) * step`
(or to the empty array when `length <= frame_length`); an empty result raises
"Not enough data points"; otherwise the strided view yields
`1 + (length - frame_length) // step` frames, frame `i` starting at
`i * step` with `step = frame_length - overlap`. -/
def segmentCore {α : Type} (a : List α) (frame_length hop_length : ℕ) :
    Except SegError (List (List α)) :=
  let length := a.length
  let overlap := frame_length - hop_length
  let step := frame_length - overlap
  let a2 :=
    if length < frame_length ∨ (length - frame_length) % step ≠ 0 then
      (if frame_length < length then
        a.take (frame_length + ((length - frame_length) / step) * step)
      else a.take 0)
    else a
  if a2.length = 0 then Except.error SegError.insufficientData
  else
    Except.ok ((List.range (1 + (a2.length - frame_length) / step)).map
      (fun i => (a2.drop (i * step)).take frame_length))

/-- `segment_axis(a, frame_length, hop_length, axis=0, end='cut')` from
signal.py.  Parameters are integers as in Python; the two validation
branches are, in source order: `overlap >= frame_length` ("frames cannot
overlap by more than 100%") and `overlap < 0 or frame_length <= 0`
("overlap must be nonnegative and length must be positive"). -/
def segment_axis_cut {α : Type} (a : List α) (frame_length hop_length : ℤ) :
    Except SegError (List (List α)) :=
  let overlap := frame_length - hop_length
  if frame_length ≤ overlap then Except.error SegError.invalidParameter
  else if overlap < 0 ∨ frame_length ≤ 0 then Except.error SegError.invalidParameter
  else segmentCore a frame_length.toNat hop_length.toNat

lemma segmentCore_ne_invalid {α : Type} (a : List α) (fl hl : ℕ) :
    segmentCore a fl hl ≠ Except.error SegError.invalidParameter := by
  unfold segmentCore
  dsimp only
  split <;> split <;> (try split) <;> simp

lemma segmentCore_frames {α : Type} (a : List α) (fl hl : ℕ)
    (h0 : 0 < hl) (h1 : hl ≤ fl) (h2 : fl ≤ a.length) :
    ∃ frames, segmentCore a fl hl = Except.ok frames ∧
      frames.length = 1 + (a.length - fl) / hl ∧
      ∀ f ∈ frames, f.length = fl := by
  have hfl0 : 0 < fl := lt_of_lt_of_le h0 h1
  have hstep : fl - (fl - hl) = hl := by omega
  unfold segmentCore
  dsimp only
  rw [hstep]
  by_cases hmod : (a.length - fl) % hl = 0
  · have hcond : ¬(a.length < fl ∨ (a.length - fl) % hl ≠ 0) := by
      push_neg
      exact ⟨by omega, by simpa using hmod⟩
    rw [if_neg hcond]
    rw [if_neg (by omega)]
    refine ⟨_, rfl, ?_, ?_⟩
    · simp
    · intro f hf
      simp only [List.mem_map, List.mem_range] at hf
      obtain ⟨i, hi, rfl⟩ := hf
      have hile : i ≤ (a.length - fl) / hl := by omega
      have hmul : i * hl ≤ ((a.length - fl) / hl) * hl := Nat.mul_le_mul_right _ hile
      have hdm : ((a.length - fl) / hl) * hl ≤ a.length - fl := Nat.div_mul_le_self _ _
      rw [List.length_take, List.length_drop]
      exact Nat.min_eq_left (by omega)
  · have hlt : fl < a.length := by
      rcases lt_or_eq_of_le h2 with h | h
      · exact h
      · exact absurd (by rw [← h, Nat.sub_self, Nat.zero_mod]) hmod
    have hdm : ((a.length - fl) / hl) * hl ≤ a.length - fl := Nat.div_mul_le_self _ _
    have hRle : fl + ((a.length - fl) / hl) * hl ≤ a.length := by omega
    rw [if_pos (Or.inr hmod), if_pos hlt]
    have hlen2 : (a.take (fl + ((a.length - fl) / hl) * hl)).length
        = fl + ((a.length - fl) / hl) * hl := by
      rw [List.length_take]; exact Nat.min_eq_left hRle
    rw [if_neg (by rw [hlen2]; omega)]
    refine ⟨_, rfl, ?_, ?_⟩
    · simp only [List.length_map, List.length_range, hlen2]
      have hsub : fl + ((a.length - fl) / hl) * hl - fl = ((a.length - fl) / hl) * hl := by
        omega
      rw [hsub, Nat.mul_div_cancel _ h0]
    · intro f hf
      simp only [List.mem_map, List.mem_range, hlen2] at hf
      obtain ⟨i, hi, rfl⟩ := hf
      have hsub : fl + ((a.length - fl) / hl) * hl - fl = ((a.length - fl) / hl) * hl := by
        omega
      rw [hsub, Nat.mul_div_cancel _ h0] at hi
      have hmul : i * hl ≤ ((a.length - fl) / hl) * hl :=
        Nat.mul_le_mul_right _ (by omega)
      rw [List.length_take, List.length_drop, hlen2]
      exact Nat.min_eq_left (by omega)

/-- C1: for a 1-D signal whose length `L` admits framing under edge policy
'cut' (`L ≥ frame_length`, with valid framing parameters
`0 < hop_length ≤ frame_length`), `segment_axis(a, frame_length, hop_length,
end='cut')` returns exactly `1 + (L - frame_length) / hop_length` frames,
each of length `frame_length`. -/
theorem segment_axis_cut_frame_count {α : Type} (a : List α) (fl hl : ℕ)
    (h0 : 0 < hl) (h1 : hl ≤ fl) (h2 : fl ≤ a.length) :
    ∃ frames, segment_axis_cut a (fl : ℤ) (hl : ℤ) = Except.ok frames ∧
      frames.length = 1 + (a.length - fl) / hl ∧
      ∀ f ∈ frames, f.length = fl := by
  unfold segment_axis_cut
  dsimp only
  rw [if_neg (by omega), if_neg (by omega)]
  rw [Int.toNat_natCast, Int.toNat_natCast]
  exact segmentCore_frames a fl hl h0 h1 h2

/-- C1 witness: a signal of length 2000, `frame_length=400`, `hop_length=160`,
`end='cut'` yields exactly 11 frames of length 400. -/
theorem segment_axis_cut_frame_count_witness :
    ∃ frames, segment_axis_cut (List.replicate 2000 (0 : ℚ)) (400 : ℤ) (160 : ℤ)
        = Except.ok frames ∧
      frames.length = 11 ∧ ∀ f ∈ frames, f.length = 400 := by
  obtain ⟨fr, hok, hlen, hf⟩ :=
    segment_axis_cut_frame_count (List.replicate 2000 (0 : ℚ)) 400 160
      (by decide) (by decide) (by rw [List.length_replicate]; omega)
  refine ⟨fr, hok, ?_, hf⟩
  rw [hlen, List.length_replicate]

/-- C4 counterexample: the call with `frame_length = 4, hop_length = 4`
violates the claimed bound `hop_length < frame_length`, yet `segment_axis`
does not fail: it returns two frames. -/
theorem segment_axis_cut_accepts_hop_eq_frame :
    segment_axis_cut ([0, 1, 2, 3, 4, 5, 6, 7] : List ℤ) 4 4
        = Except.ok [[0, 1, 2, 3], [4, 5, 6, 7]] ∧ ¬ ((4 : ℤ) < 4) := by
  exact ⟨rfl, by decide⟩

/-- C4 (amended): `segment_axis` accepts exactly the parameter combinations
with `frame_length > 0` and `0 < hop_length ≤ frame_length` (equivalently,
`overlap = frame_length - hop_length` satisfies `0 ≤ overlap <
frame_length`): any call violating these bounds fails with
`InvalidParameter` before any framing, and no call satisfying them raises a
parameter-validation error. -/
theorem segment_axis_cut_param_validation {α : Type} (a : List α) (fl hl : ℤ) :
    segment_axis_cut a fl hl ≠ Except.error SegError.invalidParameter ↔
      0 < fl ∧ 0 < hl ∧ hl ≤ fl := by
  unfold segment_axis_cut
  dsimp only
  split
  · exact iff_of_false (by simp) (by omega)
  · split
    · exact iff_of_false (by simp) (by omega)
    · exact iff_of_true (segmentCore_ne_invalid a _ _) (by omega)

/-- `pre_emphasis(s, coeff)` (signal.py / speech.py), 1-D branch:
`np.append(s[0], s[1:] - coeff * s[:-1])`. -/
def pre_emphasis (s : List ℚ) (coeff : ℚ) : List ℚ :=
  match s with
  | [] => []
  | s0 :: rest => s0 :: List.zipWith (fun a b => a - coeff * b) rest (s0 :: rest).dropLast

lemma getD_zipWith (f : ℚ → ℚ → ℚ) :
    ∀ (xs ys : List ℚ) (n : ℕ), n < xs.length → n < ys.length →
      (List.zipWith f xs ys).getD n 0 = f (xs.getD n 0) (ys.getD n 0)
  | [], _, _, h, _ => absurd h (by simp)
  | _ :: _, [], _, _, h => absurd h (by simp)
  | x :: xs, y :: ys, 0, _, _ => by simp
  | x :: xs, y :: ys, n + 1, h1, h2 => by
      simp only [List.zipWith_cons_cons, List.getD_cons_succ]
      exact getD_zipWith f xs ys n (by simpa using h1) (by simpa using h2)

lemma getD_dropLast : ∀ (l : List ℚ) (n : ℕ), n + 1 < l.length →
    l.dropLast.getD n 0 = l.getD n 0
  | [], _, h => by simp at h
  | [_], _, h => by simp at h
  | _ :: _ :: _, 0, _ => by simp [List.dropLast]
  | x :: y :: l, n + 1, h => by
      simp only [List.dropLast, List.getD_cons_succ]
      exact getD_dropLast (y :: l) n (by simpa using h)

/-- C10: `pre_emphasis(s, coeff)` on a 1-D signal of length `n ≥ 1` returns an
array of the same length whose first sample is `s[0]` unchanged and whose
sample at every index `t ≥ 1` is `s[t] - coeff * s[t-1]`. -/
theorem pre_emphasis_spec (s : List ℚ) (c : ℚ) (h : s ≠ []) :
    (pre_emphasis s c).length = s.length ∧
    (pre_emphasis s c).getD 0 0 = s.getD 0 0 ∧
    ∀ t, t + 1 < s.length →
      (pre_emphasis s c).getD (t + 1) 0 = s.getD (t + 1) 0 - c * s.getD t 0 := by
  match s with
  | [] => exact absurd rfl h
  | s0 :: rest =>
    refine ⟨?_, ?_, ?_⟩
    · simp [pre_emphasis, List.length_zipWith]
    · simp [pre_emphasis]
    · intro t ht
      have hlen : t < rest.length := by simpa using ht
      have hlen2 : t < (s0 :: rest).dropLast.length := by
        simpa [List.length_dropLast] using hlen
      simp only [pre_emphasis, List.getD_cons_succ]
      rw [getD_zipWith _ rest _ t hlen hlen2]
      rw [getD_dropLast (s0 :: rest) t (by simpa using hlen)]

/-- C10 witness: `pre_emphasis([1, 3, 2], 1/2) = [1, 3 - 1/2 * 1, 2 - 1/2 * 3]`,
length preserved. -/
theorem pre_emphasis_spec_witness :
    ([1, 3, 2] : List ℚ) ≠ [] ∧
    (pre_emphasis [1, 3, 2] (1 / 2)).length = 3 ∧
    (pre_emphasis [1, 3, 2] (1 / 2)).getD 0 0 = 1 ∧
    (pre_emphasis [1, 3, 2] (1 / 2)).getD 1 0 = 3 - (1 / 2) * 1 ∧
    (pre_emphasis [1, 3, 2] (1 / 2)).getD 2 0 = 2 - (1 / 2) * 3 := by
  have h := pre_emphasis_spec [1, 3, 2] (1 / 2) (by decide)
  refine ⟨by decide, by simpa using h.1, by simpa using h.2.1, ?_, ?_⟩
  · have := h.2.2 0 (by decide)
    simpa using this
  · have := h.2.2 1 (by decide)
    simpa using this

/-! ### dB conversion (`power2db`, signal.py) -/

/-- `numpy`'s `.max()` over a 1-D array, as a fold (the source never calls it
on an empty array). -/
def npMax (l : List ℚ) : ℚ := l.foldl max (l.headD 0)

/-- `numpy`'s `.min()` over a 1-D array, as a fold. -/
def npMin (l : List ℚ) : ℚ := l.foldl min (l.headD 0)

lemma foldl_max_facts (l : List ℚ) (acc : ℚ) :
    acc ≤ l.foldl max acc ∧ ∀ x ∈ l, x ≤ l.foldl max acc := by
  induction l generalizing acc with
  | nil => simp
  | cons y ys ih =>
    refine ⟨le_trans (le_max_left acc y) (ih (max acc y)).1, ?_⟩
    intro x hx
    rcases List.mem_cons.mp hx with rfl | hx
    · exact le_trans (le_max_right acc x) (ih (max acc x)).1
    · exact (ih (max acc y)).2 x hx

lemma foldl_max_mem (l : List ℚ) (acc : ℚ) :
    l.foldl max acc = acc ∨ l.foldl max acc ∈ l := by
  induction l generalizing acc with
  | nil => simp
  | cons y ys ih =>
    rcases ih (max acc y) with h | h
    · rcases max_cases acc y with ⟨hm, _⟩ | ⟨hm, _⟩
      · exact Or.inl (by rw [List.foldl_cons, h, hm])
      · exact Or.inr (by rw [List.foldl_cons, h, hm]; exact List.mem_cons_self y ys)
    · exact Or.inr (List.mem_cons_of_mem y h)

lemma foldl_min_facts (l : List ℚ) (acc : ℚ) :
    l.foldl min acc ≤ acc ∧ ∀ x ∈ l, l.foldl min acc ≤ x := by
  induction l generalizing acc with
  | nil => simp
  | cons y ys ih =>
    refine ⟨le_trans (ih (min acc y)).1 (min_le_left acc y), ?_⟩
    intro x hx
    rcases List.mem_cons.mp hx with rfl | hx
    · exact le_trans (ih (min acc x)).1 (min_le_right acc x)
    · exact (ih (min acc y)).2 x hx

lemma foldl_min_mem (l : List ℚ) (acc : ℚ) :
    l.foldl min acc = acc ∨ l.foldl min acc ∈ l := by
  induction l generalizing acc with
  | nil => simp
  | cons y ys ih =>
    rcases ih (min acc y) with h | h
    · rcases min_cases acc y with ⟨hm, _⟩ | ⟨hm, _⟩
      · exact Or.inl (by rw [List.foldl_cons, h, hm])
      · exact Or.inr (by rw [List.foldl_cons, h, hm]; exact List.mem_cons_self y ys)
    · exact Or.inr (List.mem_cons_of_mem y h)

lemma mem_le_npMax {l : List ℚ} {x : ℚ} (hx : x ∈ l) : x ≤ npMax l :=
  (foldl_max_facts l (l.headD 0)).2 x hx

lemma npMax_mem {l : List ℚ} (h : l ≠ []) : npMax l ∈ l := by
  rcases foldl_max_mem l (l.headD 0) with he | he
  · rw [npMax, he]
    match l, h with
    | x :: xs, _ => simp
  · exact he

lemma npMin_le_mem {l : List ℚ} {x : ℚ} (hx : x ∈ l) : npMin l ≤ x :=
  (foldl_min_facts l (l.headD 0)).2 x hx

lemma npMin_mem {l : List ℚ} (h : l ≠ []) : npMin l ∈ l := by
  rcases foldl_min_mem l (l.headD 0) with he | he
  · rw [npMin, he]
    match l, h with
    | x :: xs, _ => simp
  · exact he

/-- `power2db(S, ref, amin, top_db)` (signal.py), elementwise over a 1-D
array, with the transcendental `log10` passed as an uninterpreted function:
`amin <= 0` raises; `log_spec = 10*log10(maximum(amin, |S|))` minus
`10*log10(maximum(amin, |ref|))`; if `top_db` is given, `top_db < 0` raises
and otherwise the result is `maximum(log_spec, log_spec.max() - top_db)`. -/
def power2db (log10 : ℚ → ℚ) (S : List ℚ) (ref : ℚ) (amin : ℚ)
    (top_db : Option ℚ) : Except Unit (List ℚ) :=
  if amin ≤ 0 then Except.error ()
  else
    let magnitude := S.map (fun x => |x|)
    let ref_value := |ref|
    let log_spec := magnitude.map (fun m => 10 * log10 (max amin m))
    let log_spec2 := log_spec.map (fun x => x - 10 * log10 (max amin ref_value))
    match top_db with
    | none => Except.ok log_spec2
    | some td =>
        if td < 0 then Except.error ()
        else Except.ok (log_spec2.map (fun x => max x (npMax log_spec2 - td)))

/-- The unclipped dB values as the spec states them:
`10*log10(max(amin,|S|)) - 10*log10(max(amin,|ref|))` elementwise. -/
def db_unclipped (log10 : ℚ → ℚ) (S : List ℚ) (ref amin : ℚ) : List ℚ :=
  S.map (fun x => 10 * log10 (max amin |x|) - 10 * log10 (max amin |ref|))

lemma clip_npMax_npMin (U : List ℚ) (td : ℚ) (htd : 0 ≤ td) (hU : U ≠ []) :
    npMax (U.map (fun x => max x (npMax U - td))) = npMax U ∧
    npMax (U.map (fun x => max x (npMax U - td))) -
      npMin (U.map (fun x => max x (npMax U - td))) ≤ td := by
  have hout : U.map (fun x => max x (npMax U - td)) ≠ [] := by
    simpa using hU
  have hmax : npMax (U.map (fun x => max x (npMax U - td))) = npMax U := by
    apply le_antisymm
    · obtain ⟨x, hxU, hxe⟩ := List.mem_map.mp (npMax_mem hout)
      rw [← hxe]
      exact max_le (mem_le_npMax hxU) (by linarith)
    · have hmem : max (npMax U) (npMax U - td) ∈
          U.map (fun x => max x (npMax U - td)) :=
        List.mem_map_of_mem _ (npMax_mem hU)
      rw [max_eq_left (by linarith)] at hmem
      exact mem_le_npMax hmem
  refine ⟨hmax, ?_⟩
  obtain ⟨x, hxU, hxe⟩ := List.mem_map.mp (npMin_mem hout)
  have hge : npMax U - td ≤ npMin (U.map (fun x => max x (npMax U - td))) := by
    rw [← hxe]
    exact le_max_right _ _
  linarith [hmax.ge]

/-- C7: for every input `S`, scalar `ref`, `amin > 0` and `top_db ≥ 0`,
`power2db` returns `10*log10(max(amin,|S|)) - 10*log10(max(amin,|ref|))`
clipped below at `max - top_db`; consequently the output's
`max - min ≤ top_db` and its max equals the max of the unclipped values. -/
theorem power2db_clip_spec (log10 : ℚ → ℚ) (S : List ℚ) (ref amin td : ℚ)
    (hamin : 0 < amin) (htd : 0 ≤ td) (hS : S ≠ []) :
    power2db log10 S ref amin (some td) =
      Except.ok ((db_unclipped log10 S ref amin).map
        (fun x => max x (npMax (db_unclipped log10 S ref amin) - td))) ∧
    npMax ((db_unclipped log10 S ref amin).map
        (fun x => max x (npMax (db_unclipped log10 S ref amin) - td)))
      = npMax (db_unclipped log10 S ref amin) ∧
    npMax ((db_unclipped log10 S ref amin).map
        (fun x => max x (npMax (db_unclipped log10 S ref amin) - td)))
      - npMin ((db_unclipped log10 S ref amin).map
        (fun x => max x (npMax (db_unclipped log10 S ref amin) - td))) ≤ td := by
  have hU : db_unclipped log10 S ref amin ≠ [] := by
    simpa [db_unclipped] using hS
  have hprops := clip_npMax_npMin (db_unclipped log10 S ref amin) td htd hU
  refine ⟨?_, hprops.1, hprops.2⟩
  unfold power2db
  rw [if_neg (not_le.mpr hamin)]
  dsimp only
  rw [if_neg (not_lt.mpr htd)]
  have hmaps : ((S.map (fun x => |x|)).map
        (fun m => 10 * log10 (max amin m))).map
        (fun x => x - 10 * log10 (max amin |ref|))
      = db_unclipped log10 S ref amin := by
    simp only [List.map_map, db_unclipped]
    rfl
  rw [hmaps]

/-- C7 witness: with `log10` taken as the identity oracle, `S = [1, 2]`,
`ref = 1`, `amin = 1`, `top_db = 80`, the clipping property holds. -/
theorem power2db_clip_spec_witness :
    (0 : ℚ) < 1 ∧ (0 : ℚ) ≤ 80 ∧ ([1, 2] : List ℚ) ≠ [] ∧
    (power2db id [1, 2] 1 1 (some 80) =
      Except.ok ((db_unclipped id [1, 2] 1 1).map
        (fun x => max x (npMax (db_unclipped id [1, 2] 1 1) - 80))) ∧
    npMax ((db_unclipped id [1, 2] 1 1).map
        (fun x => max x (npMax (db_unclipped id [1, 2] 1 1) - 80)))
      = npMax (db_unclipped id [1, 2] 1 1) ∧
    npMax ((db_unclipped id [1, 2] 1 1).map
        (fun x => max x (npMax (db_unclipped id [1, 2] 1 1) - 80)))
      - npMin ((db_unclipped id [1, 2] 1 1).map
        (fun x => max x (npMax (db_unclipped id [1, 2] 1 1) - 80))) ≤ 80) :=
  ⟨by norm_num, by norm_num, by decide,
    power2db_clip_spec id [1, 2] 1 1 80 (by norm_num) (by norm_num) (by decide)⟩

/-! ### Delta features (`compute_delta`, signal.py / speech.py) -/

/-- `half_length = 1 + int(width // 2)` from `compute_delta`. -/
def delta_half_length (width : ℕ) : ℕ := 1 + width / 2

/-- The unnormalized regression kernel
`np.arange(half_length - 1., -half_length, -1.)`:
the values `half_length - 1, half_length - 2, ..., -(half_length - 1)`. -/
def delta_window_raw (width : ℕ) : List ℚ :=
  (List.range (2 * delta_half_length width - 1)).map
    (fun i : ℕ => ((delta_half_length width : ℚ) - 1) - (i : ℚ))

/-- `np.sum(np.abs(l) ** 2)`. -/
def sumAbsSq (l : List ℚ) : ℚ := (l.map (fun x => |x| ^ 2)).sum

/-- The kernel after `window /= np.sum(np.abs(window)**2)`. -/
def delta_window (width : ℕ) : List ℚ :=
  (delta_window_raw width).map (fun x => x / sumAbsSq (delta_window_raw width))

lemma sum_map_div (l : List ℚ) (g : ℚ → ℚ) (c : ℚ) :
    (l.map (fun x => g x / c)).sum = (l.map g).sum / c := by
  induction l with
  | nil => simp
  | cons x xs ih => simp [ih, add_div]

lemma sumAbsSq_raw_pos (width : ℕ) (h3 : 3 ≤ width) :
    0 < sumAbsSq (delta_window_raw width) := by
  have h0mem : (0 : ℕ) ∈ List.range (2 * delta_half_length width - 1) := by
    apply List.mem_range.mpr
    unfold delta_half_length
    omega
  have hmem : ((delta_half_length width : ℚ) - 1 - ((0 : ℕ) : ℚ))
      ∈ delta_window_raw width := by
    unfold delta_window_raw
    exact List.mem_map.mpr ⟨0, h0mem, rfl⟩
  have hmemsq : |((delta_half_length width : ℚ) - 1 - ((0 : ℕ) : ℚ))| ^ 2
      ∈ (delta_window_raw width).map (fun x => |x| ^ 2) :=
    List.mem_map_of_mem _ hmem
  have hnonneg : ∀ x ∈ (delta_window_raw width).map (fun x => |x| ^ 2), (0 : ℚ) ≤ x := by
    intro x hx
    obtain ⟨y, _, rfl⟩ := List.mem_map.mp hx
    exact sq_nonneg _
  have hle := List.single_le_sum hnonneg _ hmemsq
  have hhl : (2 : ℚ) ≤ (delta_half_length width : ℚ) := by
    have h2 : 2 ≤ delta_half_length width := by
      unfold delta_half_length
      omega
    exact_mod_cast h2
  have h1le : (1 : ℚ) ≤ |((delta_half_length width : ℚ) - 1 - ((0 : ℕ) : ℚ))| := by
    have hval : (1 : ℚ) ≤ (delta_half_length width : ℚ) - 1 - ((0 : ℕ) : ℚ) := by
      push_cast
      linarith
    exact le_trans hval (le_abs_self _)
  have hsq : (1 : ℚ) ≤ |((delta_half_length width : ℚ) - 1 - ((0 : ℕ) : ℚ))| ^ 2 := by
    nlinarith [abs_nonneg ((delta_half_length width : ℚ) - 1 - ((0 : ℕ) : ℚ))]
  unfold sumAbsSq
  linarith

/-- C8 counterexample: at `width = 3` (odd, `≥ 3`) the normalized kernel is
`[1/2, 0, -1/2]`, whose sum of squares is `1/2`, not `1`. -/
theorem delta_window_sumsq_ne_one :
    3 ≤ (3 : ℕ) ∧ (3 : ℕ) % 2 = 1 ∧
    sumAbsSq (delta_window 3) = 1 / 2 ∧ sumAbsSq (delta_window 3) ≠ 1 := by
  have hraw : delta_window_raw 3 = [1, 0, -1] := by
    norm_num [delta_window_raw, delta_half_length, List.range_succ]
  have hsum : sumAbsSq (delta_window_raw 3) = 2 := by
    norm_num [hraw, sumAbsSq]
  have hwin : delta_window 3 = [1 / 2, 0, -(1 / 2)] := by
    unfold delta_window
    rw [hsum, hraw]
    norm_num
  have hval : sumAbsSq (delta_window 3) = 1 / 2 := by
    rw [hwin]
    norm_num [sumAbsSq]
  exact ⟨by norm_num, by norm_num, hval, by rw [hval]; norm_num⟩

/-- C8 (amended): for every odd `width ≥ 3`, the regression kernel of
`compute_delta` has half-length `(width+1)/2` and total length `width`, and
normalization divides by the kernel's sum of squares, so the normalized
kernel's sum of squares equals `1 / (sum of squares of the unnormalized
kernel)` (rather than `1`). -/
theorem delta_window_spec (width : ℕ) (h3 : 3 ≤ width) (hodd : width % 2 = 1) :
    delta_half_length width = (width + 1) / 2 ∧
    (delta_window_raw width).length = width ∧
    (delta_window width).length = width ∧
    sumAbsSq (delta_window width) = 1 / sumAbsSq (delta_window_raw width) := by
  have hlen : (delta_window_raw width).length = width := by
    simp only [delta_window_raw, List.length_map, List.length_range, delta_half_length]
    omega
  have hs : sumAbsSq (delta_window_raw width) ≠ 0 :=
    ne_of_gt (sumAbsSq_raw_pos width h3)
  have key : ∀ (l : List ℚ) (s : ℚ), s ≠ 0 → sumAbsSq l = s →
      sumAbsSq (l.map (fun x => x / s)) = 1 / s := by
    intro l s hsne hsum
    unfold sumAbsSq at hsum ⊢
    rw [List.map_map]
    have hcongr : ((fun x => |x| ^ 2) ∘ fun x => x / s)
        = fun x => |x| ^ 2 / s ^ 2 := by
      funext x
      simp [Function.comp, abs_div, div_pow, sq_abs]
    rw [hcongr, sum_map_div l (fun x => |x| ^ 2) (s ^ 2), hsum, pow_two]
    rw [div_mul_eq_div_div, div_self hsne]
  refine ⟨?_, hlen, by simp [delta_window, hlen], ?_⟩
  · unfold delta_half_length
    omega
  · unfold delta_window
    exact key (delta_window_raw width) (sumAbsSq (delta_window_raw width)) hs rfl

/-- C8 witness: the amended statement at `width = 9`. -/
theorem delta_window_spec_witness :
    3 ≤ (9 : ℕ) ∧ (9 : ℕ) % 2 = 1 ∧
    (delta_half_length 9 = (9 + 1) / 2 ∧
     (delta_window_raw 9).length = 9 ∧
     (delta_window 9).length = 9 ∧
     sumAbsSq (delta_window 9) = 1 / sumAbsSq (delta_window_raw 9)) :=
  ⟨by decide, by decide, delta_window_spec 9 (by decide) (by decide)⟩

/-- Edge-replication padding `np.pad(row, (width, width), mode='edge')` of a
single row (the `axis = -1` case of `compute_delta`). -/
def edge_pad (row : List ℚ) (w : ℕ) : List ℚ :=
  List.replicate w (row.headD 0) ++ row ++ List.replicate w (row.getLastD 0)

/-- `scipy.signal.lfilter(b, 1, x)`: the causal FIR filter
`y[n] = sum_k b[k] * x[n-k]` (terms with `n - k < 0` are zero), output the
same length as the input. -/
def lfilter_fir (b : List ℚ) (x : List ℚ) : List ℚ :=
  (List.range x.length).map (fun n =>
    ((List.range b.length).map (fun k =>
      if k ≤ n then b.getD k 0 * x.getD (n - k) 0 else 0)).sum)

/-- The `for _ in range(order)` loop of `compute_delta`: repeatedly apply the
filter along the last axis, collecting each order's output. -/
def delta_iter (window : List ℚ) : ℕ → List (List ℚ) → List (List (List ℚ))
  | 0, _ => []
  | o + 1, dx =>
      let dx2 := dx.map (lfilter_fir window)
      dx2 :: delta_iter window o dx2

/-- `compute_delta(data, width, order, axis=-1, trim)` (signal.py /
speech.py) for 2-D input `data` given as a list of rows: validates
`width` odd `≥ 3` and `order ≥ 1`, pads each row by edge replication with
`width` on both sides, filters `order` times, and if `trim` cuts each row
back with `slice(-half_length - data.shape[axis], -half_length)`. -/
def compute_delta (data : List (List ℚ)) (width order : ℕ) (trim : Bool) :
    Except Unit (List (List (List ℚ))) :=
  if width < 3 ∨ width % 2 ≠ 1 then Except.error ()
  else if order = 0 then Except.error ()
  else
    let t := (data.headD []).length
    let half_length := delta_half_length width
    let window := delta_window width
    let padded := data.map (fun row => edge_pad row width)
    let all_deltas := delta_iter window order padded
    if trim then
      Except.ok (all_deltas.map (fun dx => dx.map (fun row =>
        (row.take (row.length - half_length)).drop (row.length - half_length - t))))
    else Except.ok all_deltas

lemma delta_iter_length (window : List ℚ) (o : ℕ) (dx : List (List ℚ)) :
    (delta_iter window o dx).length = o := by
  induction o generalizing dx with
  | zero => simp [delta_iter]
  | succ o ih => simp [delta_iter, ih]

lemma lfilter_fir_length (b x : List ℚ) : (lfilter_fir b x).length = x.length := by
  simp [lfilter_fir]

lemma delta_iter_shapes (window : List ℚ) (o : ℕ) (dx : List (List ℚ))
    (n L : ℕ) (hdx : dx.length = n) (hrows : ∀ row ∈ dx, row.length = L) :
    ∀ m ∈ delta_iter window o dx, m.length = n ∧ ∀ row ∈ m, row.length = L := by
  induction o generalizing dx with
  | zero => simp [delta_iter]
  | succ o ih =>
    intro m hm
    have hdx2len : (dx.map (lfilter_fir window)).length = n := by simpa using hdx
    have hdx2rows : ∀ row ∈ dx.map (lfilter_fir window), row.length = L := by
      intro row hr
      obtain ⟨r, hrdx, rfl⟩ := List.mem_map.mp hr
      rw [lfilter_fir_length]
      exact hrows r hrdx
    simp only [delta_iter, List.mem_cons] at hm
    rcases hm with rfl | hm
    · exact ⟨hdx2len, hdx2rows⟩
    · exact ih (dx.map (lfilter_fir window)) hdx2len hdx2rows m hm

/-- C9: for 2-D input of shape `[d, t]` (`d ≥ 1`, `t ≥ 1`),
`compute_delta(data, width=9, order=2, axis=-1, trim=True)` returns a list of
exactly two arrays, each of shape `[d, t]` (so each output index `i`
corresponds to input index `i`). -/
theorem compute_delta_shape (data : List (List ℚ)) (t : ℕ) (ht : 1 ≤ t)
    (hrows : ∀ row ∈ data, row.length = t) (hne : data ≠ []) :
    ∃ out, compute_delta data 9 2 true = Except.ok out ∧
      out.length = 2 ∧
      ∀ dx ∈ out, dx.length = data.length ∧ ∀ row ∈ dx, row.length = t := by
  have hhead : (data.headD []).length = t := by
    match data, hne with
    | d0 :: rest, _ => exact hrows d0 (List.mem_cons_self _ _)
  unfold compute_delta
  rw [if_neg (by omega), if_neg (by omega)]
  dsimp only
  rw [hhead]
  refine ⟨_, rfl, ?_, ?_⟩
  · simp [delta_iter_length]
  · intro dx hdx
    obtain ⟨m, hm, rfl⟩ := List.mem_map.mp hdx
    have hpadlen : (data.map (fun row => edge_pad row 9)).length = data.length := by simp
    have hpadrows : ∀ row ∈ data.map (fun row => edge_pad row 9),
        row.length = t + 18 := by
      intro row hr
      obtain ⟨r, hrdata, rfl⟩ := List.mem_map.mp hr
      simp only [edge_pad, List.length_append, List.length_replicate, hrows r hrdata]
      omega
    obtain ⟨hmlen, hmrows⟩ := delta_iter_shapes (delta_window 9) 2 _
      data.length (t + 18) hpadlen hpadrows m hm
    refine ⟨by simpa using hmlen, ?_⟩
    intro row hrow
    obtain ⟨r, hrm, rfl⟩ := List.mem_map.mp hrow
    have hr18 : r.length = t + 18 := hmrows r hrm
    rw [List.length_drop, List.length_take, hr18]
    have hhl : delta_half_length 9 = 5 := by decide
    rw [hhl]
    omega

/-- C9 witness: for the `1 × 3` input `[[0, 1, 2]]`, `compute_delta` with
`width=9, order=2, trim=True` returns two `1 × 3` arrays. -/
theorem compute_delta_shape_witness :
    ∃ out, compute_delta [[0, 1, 2]] 9 2 true = Except.ok out ∧
      out.length = 2 ∧
      ∀ dx ∈ out, dx.length = 1 ∧ ∀ row ∈ dx, row.length = 3 := by
  obtain ⟨out, hok, hlen, hsh⟩ := compute_delta_shape [[0, 1, 2]] 3
    (by decide) (by decide) (by decide)
  exact ⟨out, hok, hlen, by simpa using hsh⟩

/-! ### Energy-based voice activity detection (`vad_energy`,
signal.py / speech.py).  The square root (a transcendental operation on the
float side) is passed as an uninterpreted function `sqrtQ`; theorems
constrain its value where it matters.  The EM fit itself (sklearn /
sidekit, an external collaborator) is abstracted as an oracle from the
component count to either a fitted mixture or a numerical failure. -/

/-- The fitted mixture state used after EM: per-component means `mu` and
inverse covariances `invcov` (diagonal, 1-D feature). -/
structure GMixture where
  mu : List ℚ
  invcov : List ℚ
deriving DecidableEq, Repr

/-- `np.argmax` over a 1-D array: first index attaining the maximum. -/
def npArgmax (l : List ℚ) : ℕ := l.findIdx (fun x => x == npMax l)

/-- `threshold = world.mu.max() - alpha * sqrt(1.0 /
world.invcov[world.mu.argmax(), 0])` from `vad_energy`. -/
def vad_threshold (sqrtQ : ℚ → ℚ) (w : GMixture) (alpha : ℚ) : ℚ :=
  npMax w.mu - alpha * sqrtQ (1 / w.invcov.getD (npArgmax w.mu) 0)

/-- `label = log_energy > threshold` per frame. -/
def vad_labels (log_energy : List ℚ) (threshold : ℚ) : List Bool :=
  log_energy.map (fun e => decide (threshold < e))

/-- Number of frames labeled speech. -/
def speechCount (labels : List Bool) : ℕ := labels.count true

/-- `log_energy = (log_energy - np.mean(log_energy)) / np.std(log_energy)`. -/
def normalize_energy (sqrtQ : ℚ → ℚ) (e : List ℚ) : List ℚ :=
  let m := e.sum / (e.length : ℚ)
  let sd := sqrtQ ((e.map (fun x => (x - m) ^ 2)).sum / (e.length : ℚ))
  e.map (fun x => (x - m) / sd)

/-- `vad_energy(log_energy, distrib_nb, ...)` (signal.py): normalize the
energy, fit the mixture; on a numerical error (`ValueError`/`IndexError`,
i.e. `fit distrib_nb = none`) retry with `distrib_nb - 1` components if
`distrib_nb - 1 >= 2`, else return an all-zero (all non-speech) label array
with one entry per frame and a zero threshold.  On success, label each frame
by `log_energy > threshold`. -/
def vad_energy (sqrtQ : ℚ → ℚ) (fit : ℕ → Option GMixture) (alpha : ℚ)
    (log_energy : List ℚ) (distrib_nb : ℕ) : List Bool × ℚ :=
  let e := normalize_energy sqrtQ log_energy
  match fit distrib_nb with
  | some world =>
      (vad_labels e (vad_threshold sqrtQ world alpha),
        vad_threshold sqrtQ world alpha)
  | none =>
      if h : 2 ≤ distrib_nb - 1 then
        vad_energy sqrtQ fit alpha e (distrib_nb - 1)
      else (List.replicate e.length false, 0)
termination_by distrib_nb
decreasing_by omega

lemma speechCount_anti_threshold (energy : List ℚ) (t1 t2 : ℚ) (h : t2 ≤ t1) :
    speechCount (vad_labels energy t1) ≤ speechCount (vad_labels energy t2) := by
  induction energy with
  | nil => simp [vad_labels, speechCount]
  | cons e es ih =>
    simp only [vad_labels, speechCount, List.map_cons, List.count_cons] at ih ⊢
    by_cases h1 : t1 < e
    · have h2 : t2 < e := lt_of_le_of_lt h h1
      simp [h1, h2]
      omega
    · by_cases h2 : t2 < e
      · simp [h1, h2]
        omega
      · simp [h1, h2]
        omega

lemma vad_threshold_single (alpha : ℚ) :
    vad_threshold id ⟨[0], [1]⟩ alpha = -alpha := by
  unfold vad_threshold npArgmax npMax
  simp [List.findIdx_cons]

lemma vad_sigma_single :
    id (1 / ([1] : List ℚ).getD (npArgmax [0]) 0) = 1 := by
  unfold npArgmax npMax
  simp [List.findIdx_cons]

/-- C3 counterexample: with the fitted mixture having a single component of
mean `0` and precision `1` (so `sqrt(1/precision) = 1`, and the oracle value
`1` is the exact square root: `1 ≥ 0` and `1^2 = 1/1`), and one frame of
normalized log-energy `-2`, raising alpha from `1.2` to `2.4` *increases*
the number of frames labeled speech from 0 to 1. -/
theorem vad_alpha_monotone_counterexample :
    (0 : ℚ) ≤ id (1 / ((1 : ℚ))) ∧ (id (1 / ((1 : ℚ)))) ^ 2 = 1 / (1 : ℚ) ∧
    ¬ (speechCount (vad_labels [-2] (vad_threshold id ⟨[0], [1]⟩ (24 / 10)))
       ≤ speechCount (vad_labels [-2] (vad_threshold id ⟨[0], [1]⟩ (12 / 10)))) := by
  refine ⟨by norm_num, by norm_num, ?_⟩
  rw [vad_threshold_single, vad_threshold_single]
  unfold vad_labels speechCount
  norm_num

/-- C3 (amended): for a fixed log-energy input and fixed fitted mixture,
increasing the VAD sensitivity alpha never *decreases* the number of frames
labeled speech: the threshold
`mean_of_highest_energy_component - alpha * sqrt(1/precision)` moves
monotonically downward as alpha grows (the square-root factor being
nonnegative), so every frame labeled speech at the smaller alpha is still
labeled speech at the larger alpha.  In particular raising alpha from 1.2 to
2.4 never decreases the speech-frame count. -/
theorem vad_alpha_monotone_amended (sqrtQ : ℚ → ℚ) (w : GMixture)
    (energy : List ℚ) (alpha1 alpha2 : ℚ) (h12 : alpha1 ≤ alpha2)
    (hs : 0 ≤ sqrtQ (1 / w.invcov.getD (npArgmax w.mu) 0)) :
    speechCount (vad_labels energy (vad_threshold sqrtQ w alpha1)) ≤
      speechCount (vad_labels energy (vad_threshold sqrtQ w alpha2)) := by
  apply speechCount_anti_threshold
  unfold vad_threshold
  have hmul := mul_le_mul_of_nonneg_right h12 hs
  linarith

/-- C3 amended witness: alpha `1.2 ≤ 2.4` with the concrete mixture of the
counterexample; the speech-frame count does not decrease. -/
theorem vad_alpha_monotone_amended_witness :
    (12 / 10 : ℚ) ≤ 24 / 10 ∧
    (0 : ℚ) ≤ id (1 / (GMixture.mk [0] [1]).invcov.getD
        (npArgmax (GMixture.mk [0] [1]).mu) 0) ∧
    speechCount (vad_labels [-2] (vad_threshold id ⟨[0], [1]⟩ (12 / 10))) ≤
      speechCount (vad_labels [-2] (vad_threshold id ⟨[0], [1]⟩ (24 / 10))) := by
  have hsig : (0 : ℚ) ≤ id (1 / ((⟨[0], [1]⟩ : GMixture)).invcov.getD
      (npArgmax ((⟨[0], [1]⟩ : GMixture)).mu) 0) := by
    show (0 : ℚ) ≤ id (1 / ([1] : List ℚ).getD (npArgmax [0]) 0)
    rw [vad_sigma_single]
    norm_num
  exact ⟨by norm_num, hsig,
    vad_alpha_monotone_amended id ⟨[0], [1]⟩ [-2] (12 / 10) (24 / 10)
      (by norm_num) hsig⟩

/-- C6: whenever the EM fit raises a numerical error at `distrib_nb`
components, `vad_energy` retries with one fewer component; when the count
would drop below 2 it returns an all-non-speech (all-false) label array with
one entry per input frame and a zero threshold, so the error never
propagates to the caller. -/
theorem vad_energy_degenerate_recovery (sqrtQ : ℚ → ℚ)
    (fit : ℕ → Option GMixture) (alpha : ℚ) (log_energy : List ℚ) (d : ℕ)
    (hfail : fit d = none) :
    (2 ≤ d - 1 → vad_energy sqrtQ fit alpha log_energy d
        = vad_energy sqrtQ fit alpha (normalize_energy sqrtQ log_energy) (d - 1)) ∧
    (d - 1 < 2 → vad_energy sqrtQ fit alpha log_energy d
        = (List.replicate log_energy.length false, 0)) := by
  constructor
  · intro h2
    rw [vad_energy]
    simp only [hfail]
    rw [dif_pos h2]
  · intro h2
    rw [vad_energy]
    simp only [hfail]
    rw [dif_neg (by omega)]
    simp [normalize_energy]

/-- C6 witness: with an EM oracle that always fails and `distrib_nb = 2`
(so `distrib_nb - 1 < 2`), `vad_energy` on a two-frame energy input returns
`([false, false], 0)`. -/
theorem vad_energy_degenerate_recovery_witness :
    (fun _ : ℕ => (none : Option GMixture)) 2 = none ∧
    ((2 : ℕ) - 1 < 2 → vad_energy id (fun _ => none) 2 [1, 2] 2
        = (List.replicate ([1, 2] : List ℚ).length false, 0)) :=
  ⟨rfl, (vad_energy_degenerate_recovery id (fun _ => none) 2 [1, 2] 2 rfl).2⟩

/-! ### Orchestrator (`speech_features`, speech.py).

The per-stream computations call `librosa` and the VAD (external
collaborators here); they are abstracted as given stream values.  What is
embedded is the requested-output logic of the source: each stream variable
is set to `None` when its `get_*` flag is false, and the final
`return {'spec': powerspectrogram.T, 'mspec': melspectrogram.T, 'mfcc':
mfcc.T, 'vad': vad, 'pitch': pitch_freq.T, 'energy': log_energy.T}`
accesses the attribute `.T` on each non-`vad` entry. -/

/-- Python attribute access `x.T`: succeeds with the transpose on an array,
raises `AttributeError` on `None`. -/
def npT (m : Option (List (List ℚ))) : Except Unit (List (List ℚ)) :=
  match m with
  | some m => Except.ok m.transpose
  | none => Except.error ()

/-- The mapping returned by `speech_features`. -/
structure SpeechFeatures where
  spec : List (List ℚ)
  mspec : List (List ℚ)
  mfcc : List (List ℚ)
  vad : Option (List Bool)
  pitch : List (List ℚ)
  energy : List (List ℚ)
deriving DecidableEq, Repr

/-- The output-selection and return logic of `speech_features` (speech.py,
`nb_delta = 0` path) with the computed stream arrays supplied as oracle
values: a stream whose `get_*` flag is false is `None`, and the return
statement transposes every non-`vad` entry. -/
def speech_features (spec_val mspec_val mfcc_val pitch_val energy_val :
    List (List ℚ)) (vad_val : List Bool)
    (get_spec get_mspec get_mfcc get_pitch get_vad get_energy : Bool) :
    Except Unit SpeechFeatures :=
  let log_energy := if get_energy then some energy_val else none
  let vad := if get_vad then some vad_val else none
  let pitch_freq := if get_pitch then some pitch_val else none
  let powerspectrogram := if get_spec then some spec_val else none
  let melspectrogram := if get_mspec then some mspec_val else none
  let mfcc := if get_mfcc then some mfcc_val else none
  do
    let s ← npT powerspectrogram
    let ms ← npT melspectrogram
    let mf ← npT mfcc
    let p ← npT pitch_freq
    let en ← npT log_energy
    return ⟨s, ms, mf, vad, p, en⟩

/-- C5 (code behavior): with `get_spec=False` and every other stream
requested, `speech_features` fails (the return statement evaluates
`None.T`, a Python `AttributeError`) instead of returning a mapping with
`None` for the unrequested stream; with every stream requested the same
call succeeds. -/
theorem speech_features_unrequested_stream_fails :
    speech_features [[1]] [[1]] [[1]] [[1]] [[1]] [true]
      false true true true true true = Except.error () ∧
    speech_features [[1]] [[1]] [[1]] [[1]] [[1]] [true]
      true true true true true true
      = Except.ok ⟨[[1]], [[1]], [[1]], some [true], [[1]], [[1]]⟩ := by
  constructor
  · rfl
  · rfl

end OdinDSP
